import Mathlib

/-!
Shallow embedding of `freecell_solver.py`: the card/stack/board data model,
the legal-move generator, move application and undo, the solved test, the
textual serialization used as the board fingerprint, the deal loader, and
the depth-limited recursive backtracking search.  Definitions follow the
Python source line by line; theorems below settle the specification claims.
-/

namespace FreecellSolver

/-- Python `class Suit(Enum)`. -/
inductive Suit
  | HEARTS
  | CLUBS
  | SPADES
  | DIAMONDS
deriving DecidableEq

/-- Python `class Value(Enum)`. -/
inductive Value
  | ACE | TWO | THREE | FOUR | FIVE | SIX | SEVEN
  | EIGHT | NINE | TEN | JACK | QUEEN | KING
deriving DecidableEq

/-- Python `class Color(Enum)`. -/
inductive Color
  | RED
  | BLACK
deriving DecidableEq

/-- The `.value` string of a `Suit` enum member (`'H'`, `'C'`, `'S'`, `'D'`). -/
def Suit.pyValue : Suit → String
  | .HEARTS => "H"
  | .CLUBS => "C"
  | .SPADES => "S"
  | .DIAMONDS => "D"

/-- The `.value` string of a `Value` enum member (`'A'`, `'2'`, ..., `'K'`). -/
def Value.pyValue : Value → String
  | .ACE => "A"
  | .TWO => "2"
  | .THREE => "3"
  | .FOUR => "4"
  | .FIVE => "5"
  | .SIX => "6"
  | .SEVEN => "7"
  | .EIGHT => "8"
  | .NINE => "9"
  | .TEN => "T"
  | .JACK => "J"
  | .QUEEN => "Q"
  | .KING => "K"

/-- Keys of the Python dict `suit_color`.  A Python dict can be indexed with a
value of any hashable type; the source indexes `suit_color` both with `Suit`
enum members (in `SourceStack.can_accept_card`) and — in `Card.color` — with
the suit's character `self.suit.value`, a string.  We model the key space as
the sum of the two key types actually used. -/
inductive DictKey
  | suitKey (s : Suit)
  | strKey (s : String)
deriving DecidableEq

/-- The Python dict `suit_color`, as the association list of its entries.
All its keys are `Suit` enum members. -/
def suit_color : List (DictKey × Color) :=
  [(DictKey.suitKey Suit.HEARTS, Color.RED),
   (DictKey.suitKey Suit.DIAMONDS, Color.RED),
   (DictKey.suitKey Suit.CLUBS, Color.BLACK),
   (DictKey.suitKey Suit.SPADES, Color.BLACK)]

/-- Python dict subscript `suit_color[k]`: `some` of the stored value, or
`none` for the `KeyError` raised when the key is absent. -/
def suitColorGet (k : DictKey) : Option Color :=
  (suit_color.find? (fun p => p.1 == k)).map (fun p => p.2)

/-- The value stored in `suit_color` under the `Suit` member `s` (such a lookup
always succeeds; see `suitColorGet_suitKey`). -/
def suitColorOf : Suit → Color
  | .HEARTS => Color.RED
  | .DIAMONDS => Color.RED
  | .CLUBS => Color.BLACK
  | .SPADES => Color.BLACK

theorem suitColorGet_suitKey (s : Suit) :
    suitColorGet (DictKey.suitKey s) = some (suitColorOf s) := by
  cases s <;> rfl

/-- Python dict `value_order`; all accesses in the source use proper `Value`
keys, so the lookup is total. -/
def value_order : Value → Nat
  | .ACE => 1
  | .TWO => 2
  | .THREE => 3
  | .FOUR => 4
  | .FIVE => 5
  | .SIX => 6
  | .SEVEN => 7
  | .EIGHT => 8
  | .NINE => 9
  | .TEN => 10
  | .JACK => 11
  | .QUEEN => 12
  | .KING => 13

/-- Python `class Card`: the pair `(suit, value)`. -/
structure Card where
  suit : Suit
  value : Value
deriving DecidableEq

/-- Python `Card.__str__`: `f"{self.value.value}{self.suit.value}"`. -/
def Card.str (c : Card) : String :=
  c.value.pyValue ++ c.suit.pyValue

/-- Python `Card.color`: `return suit_color[self.suit.value]`.  The subscript
key is the suit's *character* (`self.suit.value`, a string), not the `Suit`
member, so the dict lookup is modelled exactly as written: a lookup of a
string key in a dict whose keys are all `Suit` members (`none` = `KeyError`). -/
def Card.color (c : Card) : Option Color :=
  suitColorGet (DictKey.strKey c.suit.pyValue)

/-- Python `f"{x}"` applied to an optional card: `str(None)` is `"None"`. -/
def pyStrOptCard : Option Card → String
  | none => "None"
  | some c => c.str

/-- Python `Value(value_str)`: enum lookup by value string (`ValueError` =
`none`). -/
def parseValue (s : String) : Option Value :=
  if s = "A" then some Value.ACE
  else if s = "2" then some Value.TWO
  else if s = "3" then some Value.THREE
  else if s = "4" then some Value.FOUR
  else if s = "5" then some Value.FIVE
  else if s = "6" then some Value.SIX
  else if s = "7" then some Value.SEVEN
  else if s = "8" then some Value.EIGHT
  else if s = "9" then some Value.NINE
  else if s = "T" then some Value.TEN
  else if s = "J" then some Value.JACK
  else if s = "Q" then some Value.QUEEN
  else if s = "K" then some Value.KING
  else none

/-- Python `Suit(suit_str)`. -/
def parseSuit (s : String) : Option Suit :=
  if s = "H" then some Suit.HEARTS
  else if s = "C" then some Suit.CLUBS
  else if s = "S" then some Suit.SPADES
  else if s = "D" then some Suit.DIAMONDS
  else none

/-- Python `parse_card_name(name)`: `value_str = name[:-1]`, `suit_str =
name[-1]`, returning the pair `(suit, value)`.  `name[-1]` on the empty
string raises, hence `none` there. -/
def parse_card_name (name : String) : Option (Suit × Value) :=
  if name.isEmpty then none
  else
    match parseValue (name.dropRight 1), parseSuit (name.takeRight 1) with
    | some v, some s => some (s, v)
    | _, _ => none

/-- Python `Card.from_name`: destructures `parse_card_name` with the variable
names swapped (`value, suit = parse_card_name(name)`) and passes them to the
constructor positionally (`cls(value, suit)`), so the two swaps cancel and the
card is built with the parsed suit in the `suit` field and the parsed value in
the `value` field. -/
def Card.from_name (name : String) : Option Card :=
  (parse_card_name name).map (fun p => { suit := p.1, value := p.2 })

/-- Identity of one of the 16 stack slots owned by a `Board`: 4 free cells
(`FreeCell`), 4 home stacks (`HomeStack`, the foundations), 8 source stacks
(`SourceStack`, the tableau columns). -/
inductive StackId
  | free (i : Fin 4)
  | home (i : Fin 4)
  | col (i : Fin 8)
deriving DecidableEq

instance : Fintype StackId :=
  Fintype.ofEquiv (Fin 4 ⊕ Fin 4 ⊕ Fin 8)
    { toFun := fun x =>
        match x with
        | Sum.inl i => StackId.free i
        | Sum.inr (Sum.inl i) => StackId.home i
        | Sum.inr (Sum.inr i) => StackId.col i
      invFun := fun id =>
        match id with
        | StackId.free i => Sum.inl i
        | StackId.home i => Sum.inr (Sum.inl i)
        | StackId.col i => Sum.inr (Sum.inr i)
      left_inv := by
        intro x
        rcases x with i | i | i <;> rfl
      right_inv := by
        intro id
        cases id <;> rfl }

/-- Python `self.__class__.__name__` of the stack object in slot `id`. -/
def class_name : StackId → String
  | .free _ => "FreeCell"
  | .home _ => "HomeStack"
  | .col _ => "SourceStack"

/-- Python `class Move`: the source and destination stacks (by slot identity)
plus the display label computed at construction time. -/
structure Move where
  from_loc : StackId
  to_loc : StackId
  description : String
deriving DecidableEq

/-- Python `class Board`: 4 free cells, 4 home stacks, 8 source stacks, and
the move history.  Each stack is its list of cards, last element = top
(Python appends and pops at the end of the list). -/
structure Board where
  free_cells : Fin 4 → List Card
  home_stacks : Fin 4 → List Card
  source_stacks : Fin 8 → List Card
  move_history : List Move
deriving DecidableEq

/-- The card list of the stack in slot `id`. -/
def stackCards (b : Board) : StackId → List Card
  | .free i => b.free_cells i
  | .home i => b.home_stacks i
  | .col i => b.source_stacks i

/-- Replace the card list of the stack in slot `id`. -/
def setCards (b : Board) : StackId → List Card → Board
  | .free i, l => { b with free_cells := Function.update b.free_cells i l }
  | .home i, l => { b with home_stacks := Function.update b.home_stacks i l }
  | .col i, l => { b with source_stacks := Function.update b.source_stacks i l }

/-- Python `Stack.top_card`: `self.cards[-1] if self.cards else None`. -/
def top_card (cards : List Card) : Option Card :=
  cards.getLast?

/-- Python `Board.__init__`: all 16 stacks empty, empty history. -/
def emptyBoard : Board :=
  { free_cells := fun _ => []
    home_stacks := fun _ => []
    source_stacks := fun _ => []
    move_history := [] }

theorem stackCards_setCards (b : Board) (id : StackId) (l : List Card) :
    stackCards (setCards b id l) = Function.update (stackCards b) id l := by
  funext x
  cases id <;> cases x <;>
    simp [stackCards, setCards, Function.update_apply, StackId.free.injEq,
      StackId.home.injEq, StackId.col.injEq]

theorem setCards_history (b : Board) (id : StackId) (l : List Card) :
    (setCards b id l).move_history = b.move_history := by
  cases id <;> rfl

theorem board_eq_of (b b' : Board)
    (h : ∀ id, stackCards b id = stackCards b' id)
    (hh : b.move_history = b'.move_history) : b = b' := by
  cases b with
  | mk fc hs ss mh =>
    cases b' with
    | mk fc' hs' ss' mh' =>
      simp only [Board.mk.injEq]
      refine ⟨funext fun i => h (.free i), funext fun i => h (.home i),
        funext fun i => h (.col i), hh⟩

/-- The acceptance predicate of the stack in slot `id`, dispatching on the
stack's class exactly as the three Python `can_accept_card` methods do:
* `FreeCell`: `not self.cards`;
* `HomeStack`: `(not self.cards and card.value == Value.ACE) or (self.cards
  and self.top_card.suit == card.suit and value_order[self.top_card.value] ==
  value_order[card.value] - 1)` (Python int subtraction agrees with `Nat`
  subtraction here because `value_order` is everywhere at least 1);
* `SourceStack`: `not self.cards or (suit_color[self.top_card.suit] !=
  suit_color[card.suit] and value_order[self.top_card.value] ==
  value_order[card.value] + 1)` — the two `suit_color` subscripts use proper
  `Suit` keys and always succeed (`suitColorGet_suitKey`). -/
def can_accept_card (b : Board) (id : StackId) (card : Card) : Bool :=
  let cards := stackCards b id
  match id with
  | .free _ => cards.isEmpty
  | .home _ =>
    match top_card cards with
    | none => card.value == Value.ACE
    | some t => t.suit == card.suit &&
        value_order t.value == value_order card.value - 1
  | .col _ =>
    match top_card cards with
    | none => true
    | some t =>
        (suitColorGet (DictKey.suitKey t.suit)
          != suitColorGet (DictKey.suitKey card.suit)) &&
        value_order t.value == value_order card.value + 1

/-- The free-cell slots, in the order Python iterates `self.free_cells`. -/
def free_ids : List StackId := (List.finRange 4).map StackId.free

/-- The home-stack slots, in iteration order. -/
def home_ids : List StackId := (List.finRange 4).map StackId.home

/-- The source-stack (column) slots, in iteration order. -/
def col_ids : List StackId := (List.finRange 8).map StackId.col

/-- `Board.all_valid_moves` iterates `chain(self.free_cells,
self.source_stacks)` as move sources. -/
def source_ids : List StackId := free_ids ++ col_ids

/-- The destination stacks iterated for a given source: `chain(home_stacks,
source_stacks)` when the source is a `FreeCell`, else `chain(home_stacks,
source_stacks, free_cells)`. -/
def dest_ids : StackId → List StackId
  | .free _ => home_ids ++ col_ids
  | _ => home_ids ++ col_ids ++ free_ids

/-- Python `Move.__init__`: records the two stacks and builds the display
label from the moving card (the source's top card) and the destination's top
card, falling back to the destination's class name when it is empty. -/
def mk_move (b : Board) (s t : StackId) : Move :=
  let card_being_moved := top_card (stackCards b s)
  let destination :=
    match top_card (stackCards b t) with
    | some d => d.str
    | none => class_name t
  { from_loc := s, to_loc := t
    description := pyStrOptCard card_being_moved ++ ">" ++ destination }

/-- The moves yielded with source `s` fixed: skipped entirely when `s` has no
top card; otherwise one `Move` per destination in `dest_ids s` that is not
`s` itself and accepts the top card (`if from_stack is to_stack: continue`,
then `if to_stack.can_accept_card(top_card): yield Move(...)`). -/
def moves_from (b : Board) (s : StackId) : List Move :=
  match top_card (stackCards b s) with
  | none => []
  | some c =>
      ((dest_ids s).filter
        (fun t => decide (t ≠ s) && can_accept_card b t c)).map (mk_move b s)

/-- Python `Board.all_valid_moves` (as the list the search materializes). -/
def all_valid_moves (b : Board) : List Move :=
  source_ids.flatMap (moves_from b)

/-- The shared pop-then-push of `make_move`/`undo_last_move`:
`dst.push_card(src.pop_card())`.  `none` models the `IndexError` of
`list.pop()` on an empty source. -/
def pop_push (b : Board) (src dst : StackId) : Option Board :=
  match (stackCards b src).getLast? with
  | none => none
  | some c =>
      let b1 := setCards b src (stackCards b src).dropLast
      some (setCards b1 dst (stackCards b1 dst ++ [c]))

/-- Python `Board.make_move`: `move.to_stack.push_card(
move.from_stack.pop_card())` then `self.move_history.append(move)`. -/
def make_move (b : Board) (m : Move) : Option Board :=
  (pop_push b m.from_loc m.to_loc).map
    (fun b' => { b' with move_history := b'.move_history ++ [m] })

/-- Python `Board.undo_last_move`: `move = self.move_history.pop()` then
`move.from_stack.push_card(move.to_stack.pop_card())`.  `none` models the
`IndexError` on an empty history or an empty destination stack. -/
def undo_last_move (b : Board) : Option Board :=
  match b.move_history.getLast? with
  | none => none
  | some m =>
      (pop_push b m.to_loc m.from_loc).map
        (fun b' => { b' with move_history := b'.move_history.dropLast })

/-- Python `Board.is_solved`: every home stack has a top card whose value is
`KING`, and every free cell and every source stack has no top card. -/
def is_solved (b : Board) : Bool :=
  ((List.finRange 4).all (fun i =>
      (top_card (b.home_stacks i)).any (fun c => c.value == Value.KING)))
  && ((List.finRange 4).all (fun i => (top_card (b.free_cells i)).isNone))
  && ((List.finRange 8).all (fun i => (top_card (b.source_stacks i)).isNone))

/-- Python `save_game`'s helper `cards_to_line`: `" ".join("  " if card is
None else str(card) for card in cards)`. -/
def cards_to_line (cards : List (Option Card)) : String :=
  String.intercalate " "
    (cards.map (fun oc => match oc with | none => "  " | some c => c.str))

/-- `max(len(stk.cards) for stk in board.source_stacks)`: a maximum of eight
nonnegative values, so folding from 0 agrees with Python's `max`. -/
def num_rows (b : Board) : Nat :=
  ((List.finRange 8).map (fun i => (b.source_stacks i).length)).foldl max 0

/-- The text `save_game` writes: the free-cell top-card line, a `"|"`, the
home-stack top-card line, a newline, then one line per row index `0 ≤ r <
num_rows` listing `stack.card_at(r)` for the eight source stacks (for a
nonnegative index, `card_at` is `self.cards[index] if index < len(self.cards)
else None`, i.e. `List.getElem?`). -/
def save_game_text (b : Board) : String :=
  let fc_line :=
    cards_to_line ((List.finRange 4).map (fun i => top_card (b.free_cells i)))
  let home_line :=
    cards_to_line ((List.finRange 4).map (fun i => top_card (b.home_stacks i)))
  let rows :=
    (List.range (num_rows b)).map (fun r =>
      cards_to_line ((List.finRange 8).map (fun i => (b.source_stacks i)[r]?)))
  (fc_line ++ "|" ++ home_line ++ "\n")
    ++ String.join (rows.map (fun line => line ++ "\n"))

/-- `Board.__hash__` hashes the `save_game` serialization; board fingerprints
are compared through that text, so the fingerprint is modelled as the text
itself. -/
def fingerprint (b : Board) : String :=
  save_game_text b

/-- Python `Stack.card_at(index)` for an arbitrary (possibly negative) `int`
index: `self.cards[index] if index < len(self.cards) else None`.  The outer
`Option` models control flow: `none` is the `IndexError` raised by the
subscript (a negative index reaching below `-len`), `some r` is a normal
return of `r`.  A negative index `i` with `0 ≤ i + len` denotes the element
at `i + len`, per Python list indexing. -/
def card_at (cards : List Card) (index : Int) : Option (Option Card) :=
  if index < (cards.length : Int) then
    (if 0 ≤ index then cards[index.toNat]?
     else if 0 ≤ index + (cards.length : Int) then
       cards[(index + (cards.length : Int)).toNat]?
     else none).map some
  else some none

/-- Python `load_game`'s inner loop over one line's tokens, carried at token
index `n` within the line: `board.source_stacks[n % 8].cards.append(
Card.from_name(card))`.  `none` models the exception raised on an
unparseable token. -/
def load_line (b : Board) : List String → Nat → Option Board
  | [], _ => some b
  | tok :: rest, n =>
      match Card.from_name tok with
      | none => none
      | some c =>
          load_line
            (setCards b (StackId.col (Fin.ofNat' 8 n))
              (stackCards b (StackId.col (Fin.ofNat' 8 n)) ++ [c]))
            rest (n + 1)

/-- Python `load_game`: a fresh `Board`, then for each line of the input,
`cards = line.split()` and the per-line enumeration loop (the token index `n`
restarts at 0 for every line).  The input is taken as its lines of
whitespace-separated tokens. -/
def load_game : List (List String) → Option Board :=
  let rec go (b : Board) : List (List String) → Option Board
    | [] => some b
    | line :: rest =>
        match load_line b line 0 with
        | none => none
        | some b' => go b' rest
  go emptyBoard

/-- The sort key of `sort_moves_by_priority`: 0 for a `HomeStack`
destination, 1 for a `SourceStack`, 2 for a `FreeCell`. -/
def move_priority (m : Move) : Nat :=
  match m.to_loc with
  | .home _ => 0
  | .col _ => 1
  | .free _ => 2

/-- Python `sort_moves_by_priority`: `sorted(moves, key=key_fn)`.  `sorted`
is stable, and with a key ranging over {0, 1, 2} a stable sort is exactly the
concatenation of the key's fibers in encounter order. -/
def sort_moves_by_priority (moves : List Move) : List Move :=
  moves.filter (fun m => move_priority m == 0)
    ++ moves.filter (fun m => move_priority m == 1)
    ++ moves.filter (fun m => move_priority m == 2)

/-- The equivalency key of `filter_redundant_moves`: `"|".join([source class
name, str(source top card), destination class name, str(destination top
card)])`, computed against the board the moves were generated from (the
board is unchanged between generation and filtering). -/
def equivalency_key (b : Board) (m : Move) : String :=
  class_name m.from_loc ++ "|" ++ pyStrOptCard (top_card (stackCards b m.from_loc))
    ++ "|" ++ class_name m.to_loc ++ "|"
    ++ pyStrOptCard (top_card (stackCards b m.to_loc))

/-- Python `filter_redundant_moves`: keep the first move of each
equivalency-key group, in encounter order. -/
def filter_redundant_moves (b : Board) : List Move → List String → List Move
  | [], _ => []
  | m :: ms, seen =>
      if equivalency_key b m ∈ seen then filter_redundant_moves b ms seen
      else m :: filter_redundant_moves b ms (equivalency_key b m :: seen)

/-- The mutable state the recursive search runs over: the board plus the
global `boards_seen` dict (fingerprint text → discovery index, insertion
ordered) and the global `lookback_distance_histogram` (distance → count).
The wall-clock progress printing (`next_print`, `clear_screen`, `print_game`)
writes to the console only and touches no search state, so it has no
counterpart here. -/
structure SearchState where
  board : Board
  boards_seen : List (String × Nat)
  histogram : List (Nat × Nat)
deriving DecidableEq

/-- Python `boards_seen.get(hash_value)`. -/
def dict_get (d : List (String × Nat)) (k : String) : Option Nat :=
  (d.find? (fun p => p.1 == k)).map (fun p => p.2)

/-- Python `lookback_distance_histogram[k] =
lookback_distance_histogram.get(k, 0) + 1`: replace the value at an existing
key, or append a new entry. -/
def histo_incr (h : List (Nat × Nat)) (k : Nat) : List (Nat × Nat) :=
  match h.find? (fun p => p.1 == k) with
  | some p => h.map (fun q => if q.1 == k then (q.1, p.2 + 1) else q)
  | none => h ++ [(k, 1)]

/-- The `for move in moves:` loop body of `full_recursive_search`, with
`recurse` standing for the recursive call at `depth_remaining - 1`:
make the move; return if solved; look the fingerprint up in `boards_seen`;
if unseen, record it and recurse, returning if the recursion solved the
board, else undo and continue; if seen, record the lookback distance in the
histogram, undo, and continue.  The two `none` fallbacks (`pop_card` on an
empty stack) are unreachable on generator-produced moves — see
`all_valid_moves_source_ne_nil` and `undo_make_move`. -/
def try_moves (recurse : SearchState → SearchState) :
    List Move → SearchState → SearchState
  | [], st => st
  | m :: ms, st =>
      match make_move st.board m with
      | none => st
      | some b1 =>
          if is_solved b1 then { st with board := b1 }
          else
            let fp := fingerprint b1
            match dict_get st.boards_seen fp with
            | none =>
                let st1 : SearchState :=
                  { board := b1
                    boards_seen := st.boards_seen ++ [(fp, st.boards_seen.length)]
                    histogram := st.histogram }
                let st2 := recurse st1
                if is_solved st2.board then st2
                else
                  match undo_last_move st2.board with
                  | none => st2
                  | some b2 => try_moves recurse ms { st2 with board := b2 }
            | some seen_at =>
                let st1 : SearchState :=
                  { board := b1
                    boards_seen := st.boards_seen
                    histogram :=
                      histo_incr st.histogram (st.boards_seen.length - seen_at) }
                match undo_last_move st1.board with
                | none => st1
                | some b2 => try_moves recurse ms { st1 with board := b2 }

/-- `full_recursive_search` at fuel `f` = depth budget `f - 1`: fuel 0 is the
immediate `if depth_remaining < 0: return`, and fuel `f + 1` generates,
sorts and deduplicates the moves of the current board and runs the loop with
the recursive call at fuel `f`. -/
def search_aux : Nat → SearchState → SearchState
  | 0, st => st
  | f + 1, st =>
      let moves :=
        filter_redundant_moves st.board
          (sort_moves_by_priority (all_valid_moves st.board)) []
      try_moves (search_aux f) moves st

/-- Python `full_recursive_search(board, depth_remaining)`: returns at once
(state unchanged) for a negative budget, else runs the recursive search. -/
def full_recursive_search (st : SearchState) (depth_remaining : Int) :
    SearchState :=
  if depth_remaining < 0 then st
  else search_aux (depth_remaining.toNat + 1) st


/-! ### Membership in the move generator -/

theorem mem_moves_from {b : Board} {s : StackId} {m : Move}
    (h : m ∈ moves_from b s) :
    m.from_loc = s ∧ m.to_loc ∈ dest_ids s ∧ m.to_loc ≠ s ∧
      ∃ c, top_card (stackCards b s) = some c ∧ can_accept_card b m.to_loc c = true := by
  unfold moves_from at h
  rcases hc : top_card (stackCards b s) with _ | c
  · rw [hc] at h
    simp at h
  · rw [hc] at h
    simp only [List.mem_map, List.mem_filter] at h
    obtain ⟨t, ⟨ht, hcond⟩, rfl⟩ := h
    simp only [Bool.and_eq_true, decide_eq_true_eq] at hcond
    exact ⟨rfl, by simpa [mk_move] using ht, by simpa [mk_move] using hcond.1,
      c, rfl, by simpa [mk_move] using hcond.2⟩

theorem mem_all_valid_moves {b : Board} {m : Move}
    (h : m ∈ all_valid_moves b) :
    m.from_loc ∈ source_ids ∧ m.to_loc ∈ dest_ids m.from_loc ∧ m.to_loc ≠ m.from_loc ∧
      ∃ c, top_card (stackCards b m.from_loc) = some c ∧
        can_accept_card b m.to_loc c = true := by
  unfold all_valid_moves at h
  simp only [List.mem_flatMap] at h
  obtain ⟨s, hs, hm⟩ := h
  obtain ⟨rfl, h2, h3, h4⟩ := mem_moves_from hm
  exact ⟨hs, h2, h3, h4⟩

theorem all_valid_moves_source_ne_nil {b : Board} {m : Move}
    (h : m ∈ all_valid_moves b) : stackCards b m.from_loc ≠ [] := by
  obtain ⟨-, -, -, c, hc, -⟩ := mem_all_valid_moves h
  intro hnil
  rw [hnil] at hc
  simp [top_card] at hc


/-! ### The pop-then-push transfer and its inverse -/

theorem stackCards_set_history (b : Board) (h : List Move) (id : StackId) :
    stackCards { b with move_history := h } id = stackCards b id := by
  cases id <;> rfl

theorem setCards_set_history (b : Board) (h : List Move) (id : StackId)
    (l : List Card) :
    setCards { b with move_history := h } id l
      = { setCards b id l with move_history := h } := by
  cases id <;> rfl

theorem pop_push_history {b b' : Board} {s t : StackId}
    (h : pop_push b s t = some b') : b'.move_history = b.move_history := by
  unfold pop_push at h
  rcases hc : (stackCards b s).getLast? with _ | c <;> rw [hc] at h
  · exact absurd h (by simp)
  · simp only [Option.some.injEq] at h
    subst h
    simp [setCards_history]

theorem pop_push_set_history (b : Board) (s t : StackId) (hist : List Move) :
    pop_push { b with move_history := hist } s t
      = (pop_push b s t).map (fun x => { x with move_history := hist }) := by
  unfold pop_push
  simp only [stackCards_set_history]
  rcases (stackCards b s).getLast? with _ | c
  · rfl
  · simp [setCards_set_history, stackCards_set_history]

theorem pop_push_inverse {b b1 : Board} {s t : StackId}
    (h : pop_push b s t = some b1) : pop_push b1 t s = some b := by
  unfold pop_push at h ⊢
  rcases hc : (stackCards b s).getLast? with _ | c <;> rw [hc] at h
  · exact absurd h (by simp)
  · simp only [Option.some.injEq] at h
    have hsnil : stackCards b s ≠ [] := by
      intro hnil; rw [hnil] at hc; simp at hc
    have hgl : (stackCards b s).getLast hsnil = c := by
      have h2 := List.getLast?_eq_getLast (stackCards b s) hsnil
      rw [hc] at h2
      exact (Option.some.inj h2).symm
    have hS : (stackCards b s).dropLast ++ [c] = stackCards b s := by
      conv_rhs => rw [← List.dropLast_concat_getLast hsnil]
      rw [hgl]
    set D := (stackCards b s).dropLast with hD
    set bp := setCards b s D with hbp
    set X := stackCards bp t with hX
    have hbt : stackCards b1 t = X ++ [c] := by
      rw [← h, stackCards_setCards]
      simp
    rw [hbt, List.getLast?_concat]
    simp only [Option.some.injEq, List.dropLast_concat]
    have hb2 : setCards b1 t X = bp := by
      apply board_eq_of
      · intro id
        rw [stackCards_setCards, ← h, stackCards_setCards]
        by_cases h2 : id = t
        · subst h2
          simp [hX]
        · simp [Function.update_apply, h2]
      · rw [setCards_history, ← h, setCards_history]
    rw [hb2]
    have hps : stackCards bp s = D := by
      rw [hbp, stackCards_setCards]
      simp
    rw [hps, hS]
    apply board_eq_of
    · intro id
      rw [hbp]
      by_cases h1 : id = s
      · subst h1
        simp [stackCards_setCards]
      · simp [stackCards_setCards, Function.update_apply, h1]
    · rw [hbp]
      simp [setCards_history]

theorem make_move_eq_some {b : Board} {m : Move}
    (hne : stackCards b m.from_loc ≠ []) : ∃ b1, make_move b m = some b1 := by
  unfold make_move pop_push
  rcases hg : (stackCards b m.from_loc).getLast? with _ | c
  · rw [List.getLast?_eq_none_iff] at hg
    exact absurd hg hne
  · exact ⟨_, rfl⟩

theorem make_move_history {b b1 : Board} {m : Move}
    (h : make_move b m = some b1) :
    b1.move_history = b.move_history ++ [m] := by
  unfold make_move at h
  rcases hp : pop_push b m.from_loc m.to_loc with _ | bp <;> rw [hp] at h
  · exact absurd h (by simp)
  · simp only [Option.map_some', Option.some.injEq] at h
    rw [← h]
    simp [pop_push_history hp]

theorem undo_make_move {b b1 : Board} {m : Move}
    (h : make_move b m = some b1) : undo_last_move b1 = some b := by
  unfold make_move at h
  rcases hp : pop_push b m.from_loc m.to_loc with _ | bp <;> rw [hp] at h
  · exact absurd h (by simp)
  · simp only [Option.map_some', Option.some.injEq] at h
    subst h
    unfold undo_last_move
    simp only [List.getLast?_concat]
    rw [pop_push_set_history, pop_push_inverse hp]
    have hbh : bp.move_history = b.move_history := pop_push_history hp
    simp [List.dropLast_concat, hbh]

/-- A concrete card: the ace of hearts. -/
def cardAH : Card := ⟨Suit.HEARTS, Value.ACE⟩

/-- A concrete board whose only card is the ace of hearts, on column 0. -/
def aceColBoard : Board :=
  { emptyBoard with source_stacks := fun i => if i = 0 then [cardAH] else [] }

/-- One of the moves the generator yields on `aceColBoard`: the ace from
column 0 onto foundation 0. -/
def aceColMove : Move := mk_move aceColBoard (StackId.col 0) (StackId.home 0)

/-- C2: for every board `B` and every move `m` produced by the move generator
on `B`, applying `make_move m` and then `undo_last_move()` yields exactly the
board `B` again — the same card list in every one of the 16 stacks and the
same move history (hence also the same fingerprint). -/
theorem claim_C2_make_then_undo_restores (b : Board) (m : Move)
    (hm : m ∈ all_valid_moves b) :
    (make_move b m).bind undo_last_move = some b := by
  obtain ⟨b1, hb1⟩ := make_move_eq_some (all_valid_moves_source_ne_nil hm)
  rw [hb1]
  exact undo_make_move hb1

/-- Witness for C2 at a concrete board and generator-produced move. -/
theorem claim_C2_witness :
    aceColMove ∈ all_valid_moves aceColBoard ∧
      (make_move aceColBoard aceColMove).bind undo_last_move
        = some aceColBoard :=
  ⟨by decide, claim_C2_make_then_undo_restores aceColBoard aceColMove (by decide)⟩

/-! ### The solved test -/

theorem top_card_any_king_iff (l : List Card) :
    (top_card l).any (fun c => c.value == Value.KING) = true
      ↔ ∃ c, top_card l = some c ∧ c.value = Value.KING := by
  rcases top_card l with _ | c <;> simp

theorem top_card_isNone_iff (l : List Card) :
    (top_card l).isNone = true ↔ l = [] := by
  simp [top_card, List.getLast?_eq_none_iff]

/-- The ascending run ace..king of one suit. -/
def suit_run (s : Suit) : List Card :=
  [⟨s, .ACE⟩, ⟨s, .TWO⟩, ⟨s, .THREE⟩, ⟨s, .FOUR⟩, ⟨s, .FIVE⟩, ⟨s, .SIX⟩,
   ⟨s, .SEVEN⟩, ⟨s, .EIGHT⟩, ⟨s, .NINE⟩, ⟨s, .TEN⟩, ⟨s, .JACK⟩, ⟨s, .QUEEN⟩,
   ⟨s, .KING⟩]

/-- A fully solved deal: every foundation holds a complete run (so is topped
by a king), everything else is empty. -/
def solvedBoard : Board :=
  { emptyBoard with
      home_stacks := fun i =>
        if i = 0 then suit_run Suit.HEARTS
        else if i = 1 then suit_run Suit.CLUBS
        else if i = 2 then suit_run Suit.SPADES
        else suit_run Suit.DIAMONDS }

/-- C6: `is_solved` is true iff every foundation's top card is a `KING` and
every free cell and every column is empty; in particular a board with all
four foundations topped by a king and all other stacks empty is solved. -/
theorem claim_C6_is_solved_iff :
    (∀ b : Board,
      (is_solved b = true ↔
        (∀ i : Fin 4, ∃ c, top_card (b.home_stacks i) = some c
            ∧ c.value = Value.KING)
          ∧ (∀ i : Fin 4, b.free_cells i = [])
          ∧ (∀ i : Fin 8, b.source_stacks i = [])))
    ∧ is_solved solvedBoard = true := by
  constructor
  · intro b
    unfold is_solved
    simp only [Bool.and_eq_true, List.all_eq_true, List.mem_finRange,
      top_card_any_king_iff, top_card_isNone_iff]
    tauto
  · decide

/-! ### Card.color and card_at -/

/-- C8 (the code is wrong here): reading the color property never succeeds —
for every card, `Card.color` looks up `suit_color[self.suit.value]`, i.e. the
suit's character string `'H'`/`'C'`/`'S'`/`'D'`, in a dict whose keys are the
`Suit` enum members, so the lookup raises `KeyError` (modelled as `none`)
instead of returning Red for hearts/diamonds and Black for clubs/spades as
the claim states. -/
theorem claim_C8_color_always_keyerror : ∀ c : Card, Card.color c = none := by
  intro c
  rcases c with ⟨s, v⟩
  cases s <;> rfl

/-- C9 counterexample: the claim says `card_at(index)` never fails for any
integer index, but on a one-card stack the Python expression
`self.cards[-2] if -2 < len(self.cards) else None` takes the subscript branch
(`-2 < 1`) and the subscript raises `IndexError` (the outer `none`). -/
theorem claim_C9_counterexample : card_at [cardAH] (-2) = none := by decide

/-- C9 amended: for every NONNEGATIVE index, `card_at` is bounds-safe — it
never fails, returning `None` for every index at or past the end and the card
at position `index` otherwise (negative indices at or below `-len` raise, see
the counterexample). -/
theorem claim_C9_amended (l : List Card) (i : Nat) :
    card_at l (i : Int) = some l[i]? := by
  unfold card_at
  split_ifs with h1 h2 h3
  · have hi : i < l.length := by exact_mod_cast h1
    simp [List.getElem?_eq_getElem hi]
  · omega
  · omega
  · have hi : l.length ≤ i := by exact_mod_cast not_lt.mp h1
    rw [List.getElem?_eq_none hi]

/-! ### The fingerprint and the order of the free-cell / foundation slots -/

/-- A board whose only card is the ace of hearts, in free cell 0. -/
def permBoardA : Board :=
  { emptyBoard with free_cells := fun i => if i = 0 then [cardAH] else [] }

/-- The same card contents with free cells 0 and 1 swapped. -/
def permBoardB : Board :=
  { emptyBoard with free_cells := fun i => if i = 1 then [cardAH] else [] }

/-- C4 (the code is wrong here): `Board.__hash__`'s own comment reads "make
order of freecells and homecells unimportant", and the claim asserts the
fingerprint is invariant under permuting the card contents of the four
holding cells (resp. foundations); but `save_game` writes the free-cell top
cards in slot order, so the two boards below — identical up to swapping the
contents of free cells 0 and 1 — serialize to different texts and get
different fingerprints. -/
theorem claim_C4_fingerprint_depends_on_slot_order :
    (permBoardB.free_cells 0 = permBoardA.free_cells 1
      ∧ permBoardB.free_cells 1 = permBoardA.free_cells 0
      ∧ permBoardB.free_cells 2 = permBoardA.free_cells 2
      ∧ permBoardB.free_cells 3 = permBoardA.free_cells 3
      ∧ permBoardB.home_stacks = permBoardA.home_stacks
      ∧ permBoardB.source_stacks = permBoardA.source_stacks
      ∧ permBoardB.move_history = permBoardA.move_history)
    ∧ fingerprint permBoardA ≠ fingerprint permBoardB := by
  exact ⟨⟨rfl, rfl, rfl, rfl, rfl, rfl, rfl⟩, by decide⟩

/-! ### The deal loader -/

/-- The tokens of a line paired with their indices within the line, starting
at `n`. -/
def with_indices_from (n : Nat) : List String → List (Nat × String)
  | [] => []
  | x :: xs => (n, x) :: with_indices_from (n + 1) xs

/-- The cards a single line contributes to column `j` when its tokens are
indexed from `n`: the parsed tokens at the indices congruent to `j` mod 8. -/
def line_column_from (j : Fin 8) (n : Nat) (line : List String) : List Card :=
  (with_indices_from n line).filterMap
    (fun p => if p.1 % 8 = (j : Nat) then Card.from_name p.2 else none)

/-- The cards column `j` receives under the per-line round-robin actually
implemented: each line's tokens indexed from 0 (the index restarts at every
line break), concatenated line by line. -/
def per_line_column (j : Fin 8) (lines : List (List String)) : List Card :=
  lines.flatMap (line_column_from j 0)

/-- The distribution the claim asserts: the token index `k` counted across
the ENTIRE input (line breaks carrying no semantic weight), cards going to
column `k` mod 8. -/
def overall_column (j : Fin 8) (lines : List (List String)) : List Card :=
  (with_indices_from 0 lines.flatten).filterMap
    (fun p => if p.1 % 8 = (j : Nat) then Card.from_name p.2 else none)

theorem load_line_source_stacks {line : List String} :
    ∀ {b b' : Board} {n : Nat}, load_line b line n = some b' →
      ∀ j : Fin 8, b'.source_stacks j
        = b.source_stacks j ++ line_column_from j n line := by
  induction line with
  | nil =>
      intro b b' n h j
      unfold load_line at h
      simp only [Option.some.injEq] at h
      subst h
      simp [line_column_from, with_indices_from]
  | cons tok rest ih =>
      intro b b' n h j
      unfold load_line at h
      rcases hcard : Card.from_name tok with _ | c <;> rw [hcard] at h
      · exact absurd h (by simp)
      · have hrec := ih h j
        have hupd : (setCards b (StackId.col (Fin.ofNat' 8 n))
            (stackCards b (StackId.col (Fin.ofNat' 8 n)) ++ [c])).source_stacks j
            = Function.update b.source_stacks (Fin.ofNat' 8 n)
                (b.source_stacks (Fin.ofNat' 8 n) ++ [c]) j := by
          simp [setCards, stackCards]
        have hlc : line_column_from j n (tok :: rest)
            = (if n % 8 = (j : Nat) then [c] else [])
                ++ line_column_from j (n + 1) rest := by
          simp only [line_column_from, with_indices_from, List.filterMap_cons]
          by_cases hm : n % 8 = (j : Nat)
          · simp [hm, hcard]
          · simp [hm]
        rw [hrec, hupd, hlc]
        have hval : (Fin.ofNat' 8 n : Nat) = n % 8 := rfl
        by_cases hj : j = Fin.ofNat' 8 n
        · rw [hj, Function.update_same, if_pos hval.symm, List.append_assoc]
        · have hm : ¬ n % 8 = (j : Nat) := by
            intro hcontra
            exact hj (Fin.ext (by rw [hval, hcontra]))
          rw [Function.update_noteq hj, if_neg hm, List.nil_append]

theorem load_game_go_source_stacks {lines : List (List String)} :
    ∀ {b b' : Board}, load_game.go b lines = some b' →
      ∀ j : Fin 8, b'.source_stacks j
        = b.source_stacks j ++ per_line_column j lines := by
  induction lines with
  | nil =>
      intro b b' h j
      unfold load_game.go at h
      simp only [Option.some.injEq] at h
      subst h
      simp [per_line_column]
  | cons line rest ih =>
      intro b b' h j
      unfold load_game.go at h
      rcases hline : load_line b line 0 with _ | b1 <;> rw [hline] at h
      · exact absurd h (by simp)
      · have h1 := load_line_source_stacks hline j
        have h2 := ih h j
        rw [h2, h1, per_line_column]
        simp [per_line_column, List.append_assoc]

/-- C7 counterexample: the claim distributes by OVERALL token index across
the whole input, but `load_game` restarts the index at every line — on the
two-line input `"AH" / "2C"` the claim puts `2C` (overall token 1) in column
1, while the code appends both cards to column 0. -/
theorem claim_C7_counterexample :
    ¬ (∀ (lines : List (List String)) (b : Board), load_game lines = some b →
        ∀ j : Fin 8, b.source_stacks j = overall_column j lines) := by
  intro h
  rcases hL : load_game [["AH"], ["2C"]] with _ | b
  · exact absurd hL (by decide)
  · have h2 := h _ _ hL 1
    have hcol : (load_game [["AH"], ["2C"]]).map (fun x => x.source_stacks 1)
        = some [] := by decide
    rw [hL] at hcol
    simp only [Option.map_some', Option.some.injEq] at hcol
    rw [hcol] at h2
    exact absurd h2 (by decide)

/-- C7 amended: `load_game` distributes cards round-robin by PER-LINE token
index: the `k`-th whitespace-separated token of each line (the count
restarting at 0 on every line, so line breaks do carry semantic weight) is
appended to column `k` mod 8, lines contributing in order. -/
theorem claim_C7_amended (lines : List (List String)) (b : Board)
    (h : load_game lines = some b) :
    ∀ j : Fin 8, b.source_stacks j = per_line_column j lines := by
  intro j
  have h1 := load_game_go_source_stacks h j
  simpa [emptyBoard] using h1

/-- Witness for the amended C7 at the concrete two-line input. -/
theorem claim_C7_witness :
    ∃ b, load_game [["AH"], ["2C"]] = some b
      ∧ b.source_stacks 0 = per_line_column 0 [["AH"], ["2C"]] := by
  rcases hL : load_game [["AH"], ["2C"]] with _ | b
  · exact absurd hL (by decide)
  · exact ⟨b, rfl, claim_C7_amended [["AH"], ["2C"]] b hL 0⟩

/-! ### Characterization of the move generator -/

/-- A concrete board whose only card is the ace of hearts, on foundation 0. -/
def aceHomeBoard : Board :=
  { emptyBoard with home_stacks := fun i => if i = 0 then [cardAH] else [] }

theorem moves_from_endpoints (b : Board) (s : StackId) :
    (moves_from b s).map (fun m => (m.from_loc, m.to_loc))
      = match top_card (stackCards b s) with
        | none => []
        | some c => ((dest_ids s).filter
            (fun t => decide (t ≠ s) && can_accept_card b t c)).map
              (fun t => (s, t)) := by
  unfold moves_from
  rcases top_card (stackCards b s) with _ | c
  · rfl
  · rw [List.map_map]
    rfl

theorem endpoints_fst_of_mem {b : Board} {s : StackId} {p : StackId × StackId}
    (hp : p ∈ (moves_from b s).map (fun m => (m.from_loc, m.to_loc))) :
    p.1 = s := by
  rw [List.mem_map] at hp
  obtain ⟨m, hm, rfl⟩ := hp
  exact (mem_moves_from hm).1

theorem all_valid_moves_endpoints_nodup (b : Board) :
    ((all_valid_moves b).map (fun m => (m.from_loc, m.to_loc))).Nodup := by
  unfold all_valid_moves
  rw [List.map_flatMap, List.nodup_flatMap]
  constructor
  · intro s hs
    rw [moves_from_endpoints]
    rcases top_card (stackCards b s) with _ | c
    · exact List.nodup_nil
    · refine List.Nodup.map ?_ (List.Nodup.filter _ ?_)
      · intro t1 t2 hpair
        simpa using hpair
      · cases s with
        | free i => exact (by decide : (home_ids ++ col_ids).Nodup)
        | home i => exact (by decide : (home_ids ++ col_ids ++ free_ids).Nodup)
        | col i => exact (by decide : (home_ids ++ col_ids ++ free_ids).Nodup)
  · have hsrc : source_ids.Pairwise (fun a b => a ≠ b) := by decide
    refine List.Pairwise.imp ?_ hsrc
    intro a b' hab
    intro x hxa hxb
    exact hab (by rw [← endpoints_fst_of_mem hxa, endpoints_fst_of_mem hxb])

/-- C5 counterexample: the claim lets EVERY stack with a top card act as a
source (foundations and holding cells included).  On a board whose only card
is an ace atop foundation 0, the pair (foundation 0, free cell 0) is an
ordered pair of distinct stacks whose source has a top card accepted by the
(empty) destination, so the claim demands a move for it — but the generator
yields no move at all on this board, because `all_valid_moves` iterates only
free cells and columns as sources. -/
theorem claim_C5_counterexample :
    ¬ (∀ (b : Board) (s t : StackId), s ≠ t →
        (∃ c, top_card (stackCards b s) = some c
          ∧ can_accept_card b t c = true) →
        ∃ m ∈ all_valid_moves b, m.from_loc = s ∧ m.to_loc = t) := by
  intro h
  obtain ⟨m, hm, -⟩ := h aceHomeBoard (StackId.home 0) (StackId.free 0)
    (by decide) ⟨cardAH, by decide, by decide⟩
  rw [show all_valid_moves aceHomeBoard = [] from by decide] at hm
  exact absurd hm (List.not_mem_nil m)

/-- C5 amended: the generator yields exactly one `Move` (the endpoint pair
list below has no duplicates) for every ordered pair `(s, t)` such that `s`
ranges over the free cells and the columns only — foundations are never
sources — `t` ranges over foundations and columns, free cells included among
destinations only when the source is a column, `t ≠ s`, `s` has a top card,
and `t`'s `can_accept_card` holds for that top card. -/
theorem claim_C5_amended (b : Board) (s t : StackId) :
    ((s, t) ∈ (all_valid_moves b).map (fun m => (m.from_loc, m.to_loc)) ↔
      (s ∈ source_ids ∧ t ∈ dest_ids s ∧ t ≠ s ∧
        ∃ c, top_card (stackCards b s) = some c
          ∧ can_accept_card b t c = true))
    ∧ ((all_valid_moves b).map (fun m => (m.from_loc, m.to_loc))).Nodup := by
  refine ⟨?_, all_valid_moves_endpoints_nodup b⟩
  constructor
  · intro hmem
    rw [List.mem_map] at hmem
    obtain ⟨m, hm, hpair⟩ := hmem
    obtain ⟨h1, h2, h3, c, h4, h5⟩ := mem_all_valid_moves hm
    obtain ⟨rfl, rfl⟩ : m.from_loc = s ∧ m.to_loc = t := by
      constructor <;> (rw [Prod.mk.injEq] at hpair; tauto)
    exact ⟨h1, h2, h3, c, h4, h5⟩
  · rintro ⟨hs, ht, hts, c, hc, hacc⟩
    rw [List.mem_map]
    refine ⟨mk_move b s t, ?_, rfl⟩
    unfold all_valid_moves
    rw [List.mem_flatMap]
    refine ⟨s, hs, ?_⟩
    unfold moves_from
    rw [hc, List.mem_map]
    exact ⟨t, List.mem_filter.mpr ⟨ht, by simp [hts, hacc]⟩, rfl⟩

/-! ### Foundations are never move sources -/

theorem stackCards_home (b : Board) (i : Fin 4) :
    stackCards b (StackId.home i) = b.home_stacks i := rfl

theorem home_stacks_history_update (b : Board) (h : List Move) :
    ({ b with move_history := h } : Board).home_stacks = b.home_stacks := rfl

/-- C10: no move yielded by `all_valid_moves` has a foundation as its source
(the generator iterates only free cells and columns as sources), and
consequently `make_move` on a generated move never pops a card off a
foundation: every foundation's card list after `make_move` extends the list
before it (it grows by the pushed card when the foundation is the
destination, else is unchanged). -/
theorem claim_C10_no_foundation_source (b : Board) (m : Move)
    (hm : m ∈ all_valid_moves b) :
    (∀ i : Fin 4, m.from_loc ≠ StackId.home i) ∧
      (∀ b', make_move b m = some b' →
        ∀ i : Fin 4, ∃ added, b'.home_stacks i = b.home_stacks i ++ added) := by
  obtain ⟨hs, -, -, -⟩ := mem_all_valid_moves hm
  have hnh : ∀ i : Fin 4, StackId.home i ≠ m.from_loc := by
    intro i hcontra
    rw [← hcontra] at hs
    simp [source_ids, free_ids, col_ids] at hs
  refine ⟨fun i h => hnh i h.symm, ?_⟩
  intro b' hb' i
  unfold make_move at hb'
  rcases hp : pop_push b m.from_loc m.to_loc with _ | bp <;> rw [hp] at hb'
  · exact absurd hb' (by simp)
  · simp only [Option.map_some', Option.some.injEq] at hb'
    subst hb'
    unfold pop_push at hp
    rcases hg : (stackCards b m.from_loc).getLast? with _ | c <;> rw [hg] at hp
    · exact absurd hp (by simp)
    · simp only [Option.some.injEq] at hp
      subst hp
      rw [home_stacks_history_update, ← stackCards_home, ← stackCards_home,
        stackCards_setCards, Function.update_apply]
      by_cases hT : StackId.home i = m.to_loc
      · rw [if_pos hT]
        refine ⟨[c], ?_⟩
        rw [← hT, stackCards_setCards, Function.update_noteq (hnh i)]
      · rw [if_neg hT]
        refine ⟨[], ?_⟩
        rw [stackCards_setCards, Function.update_noteq (hnh i), List.append_nil]

/-- Witness for C10 at a concrete board and generator-produced move. -/
theorem claim_C10_witness :
    aceColMove ∈ all_valid_moves aceColBoard ∧
      (∀ i : Fin 4, aceColMove.from_loc ≠ StackId.home i) :=
  ⟨by decide,
    (claim_C10_no_foundation_source aceColBoard aceColMove (by decide)).1⟩

/-! ### Card conservation -/

/-- The multiset of all cards held across the 16 stack slots of a board. -/
def all_cards (b : Board) : Multiset Card :=
  ∑ id : StackId, ((stackCards b id : List Card) : Multiset Card)

theorem all_cards_setCards (b : Board) (id : StackId) (l : List Card) :
    all_cards (setCards b id l) + (stackCards b id : Multiset Card)
      = all_cards b + (l : Multiset Card) := by
  unfold all_cards
  have h1 : ∀ x : StackId,
      ((stackCards (setCards b id l) x : List Card) : Multiset Card)
        = Function.update
            (fun y => ((stackCards b y : List Card) : Multiset Card)) id
            (l : Multiset Card) x := by
    intro x
    rw [stackCards_setCards]
    by_cases hx : x = id
    · subst hx
      simp
    · simp [Function.update_noteq hx]
  rw [Finset.sum_congr rfl (fun x _ => h1 x), Finset.sum_update_of_mem
    (Finset.mem_univ id), Finset.sdiff_singleton_eq_erase,
    ← Finset.add_sum_erase Finset.univ _ (Finset.mem_univ id)]
  abel

theorem all_cards_history_update (b : Board) (h : List Move) :
    all_cards ({ b with move_history := h } : Board) = all_cards b := by
  unfold all_cards
  exact Finset.sum_congr rfl (fun id _ => by rw [stackCards_set_history])

theorem all_cards_pop_push {b b' : Board} {s t : StackId}
    (h : pop_push b s t = some b') : all_cards b' = all_cards b := by
  unfold pop_push at h
  rcases hg : (stackCards b s).getLast? with _ | c <;> rw [hg] at h
  · exact absurd h (by simp)
  · simp only [Option.some.injEq] at h
    have hsnil : stackCards b s ≠ [] := by
      intro hnil; rw [hnil] at hg; simp at hg
    have hgl : (stackCards b s).getLast hsnil = c := by
      have h2 := List.getLast?_eq_getLast (stackCards b s) hsnil
      rw [hg] at h2
      exact (Option.some.inj h2).symm
    have hS : (stackCards b s).dropLast ++ [c] = stackCards b s := by
      conv_rhs => rw [← List.dropLast_concat_getLast hsnil]
      rw [hgl]
    set D := (stackCards b s).dropLast with hD
    set bp := setCards b s D with hbp
    set X := ((stackCards bp t : List Card) : Multiset Card) with hX
    have e1 := all_cards_setCards bp t (stackCards bp t ++ [c])
    have e2 := all_cards_setCards b s D
    have hXc : ((stackCards bp t ++ [c] : List Card) : Multiset Card)
        = X + {c} := by
      rw [hX, ← Multiset.coe_singleton, ← Multiset.coe_add]
    have hSc : ((stackCards b s : List Card) : Multiset Card)
        = (D : Multiset Card) + {c} := by
      conv_lhs => rw [← hS]
      rw [← Multiset.coe_singleton, ← Multiset.coe_add]
    rw [hXc] at e1
    rw [hSc] at e2
    have hBC : all_cards bp + {c} = all_cards b := by
      have e2' : (all_cards bp + {c}) + (D : Multiset Card)
          = all_cards b + (D : Multiset Card) := by
        calc (all_cards bp + {c}) + (D : Multiset Card)
            = all_cards bp + ((D : Multiset Card) + {c}) := by
              rw [add_assoc, add_comm ({c} : Multiset Card)]
          _ = all_cards b + (D : Multiset Card) := e2
      exact add_right_cancel e2'
    have e1' : all_cards b' + X = all_cards b + X := by
      calc all_cards b' + X
          = all_cards (setCards bp t (stackCards bp t ++ [c])) + X := by rw [h]
        _ = all_cards bp + (X + {c}) := e1
        _ = (all_cards bp + {c}) + X := by
            rw [add_assoc, add_comm X]
        _ = all_cards b + X := by rw [hBC]
    exact add_right_cancel e1'

theorem all_cards_make_move {b b' : Board} {m : Move}
    (h : make_move b m = some b') : all_cards b' = all_cards b := by
  unfold make_move at h
  rcases hp : pop_push b m.from_loc m.to_loc with _ | bp <;> rw [hp] at h
  · exact absurd h (by simp)
  · simp only [Option.map_some', Option.some.injEq] at h
    subst h
    rw [all_cards_history_update]
    exact all_cards_pop_push hp

theorem all_cards_undo_last_move {b b' : Board}
    (h : undo_last_move b = some b') : all_cards b' = all_cards b := by
  unfold undo_last_move at h
  rcases hm : b.move_history.getLast? with _ | m <;> simp only [hm] at h
  · exact absurd h (by simp)
  · rcases hp : pop_push b m.to_loc m.from_loc with _ | bp <;>
      simp only [hp, Option.map_some', Option.map_none',
        Option.some.injEq] at h
    · exact absurd h (by simp)
    · subst h
      rw [all_cards_history_update]
      exact all_cards_pop_push hp

theorem all_cards_try_moves (recurse : SearchState → SearchState)
    (hrec : ∀ st, all_cards (recurse st).board = all_cards st.board) :
    ∀ (ms : List Move) (st : SearchState),
      all_cards (try_moves recurse ms st).board = all_cards st.board := by
  intro ms
  induction ms with
  | nil =>
      intro st
      rfl
  | cons m rest ih =>
      intro st
      unfold try_moves
      rcases hmk : make_move st.board m with _ | b1
      · rfl
      · have hb1 : all_cards b1 = all_cards st.board := all_cards_make_move hmk
        by_cases hsolved : is_solved b1 = true
        · simp only [hsolved, if_true]
          exact hb1
        · simp only [hsolved, if_false, Bool.false_eq_true]
          rcases hseen : dict_get st.boards_seen (fingerprint b1) with _ | seen_at
          · simp only [hseen]
            by_cases hsolved2 : is_solved (recurse
                { board := b1
                  boards_seen :=
                    st.boards_seen
                      ++ [(fingerprint b1, st.boards_seen.length)]
                  histogram := st.histogram }).board = true
            · simp only [hsolved2, if_true]
              rw [hrec]
              exact hb1
            · simp only [hsolved2, if_false, Bool.false_eq_true]
              rcases hundo : undo_last_move (recurse
                  { board := b1
                    boards_seen :=
                      st.boards_seen
                        ++ [(fingerprint b1, st.boards_seen.length)]
                    histogram := st.histogram }).board with _ | b2
              · rw [hrec]
                exact hb1
              · rw [ih]
                have h3 := all_cards_undo_last_move hundo
                rw [h3, hrec]
                exact hb1
          · simp only [hseen]
            rcases hundo : undo_last_move b1 with _ | b2
            · exact hb1
            · rw [ih]
              have h3 := all_cards_undo_last_move hundo
              rw [h3]
              exact hb1

theorem all_cards_search_aux :
    ∀ (f : Nat) (st : SearchState),
      all_cards (search_aux f st).board = all_cards st.board := by
  intro f
  induction f with
  | zero =>
      intro st
      rfl
  | succ n ih =>
      intro st
      unfold search_aux
      exact all_cards_try_moves (search_aux n) ih _ st

/-- C3: the multiset of cards held across all 16 stacks is preserved by
`make_move` whenever it succeeds (exactly: whenever the move's source stack
is non-empty) and by `undo_last_move` whenever it succeeds (exactly: the
history is non-empty and the last move's destination is non-empty); hence
the card multiset after any `full_recursive_search` call equals the one
before it — no card is duplicated or lost. -/
theorem claim_C3_card_conservation :
    (∀ (b : Board) (m : Move) (b' : Board), make_move b m = some b' →
        all_cards b' = all_cards b)
    ∧ (∀ (b b' : Board), undo_last_move b = some b' →
        all_cards b' = all_cards b)
    ∧ (∀ (st : SearchState) (d : Int),
        all_cards (full_recursive_search st d).board = all_cards st.board) := by
  refine ⟨fun _ _ _ h => all_cards_make_move h,
    fun _ _ h => all_cards_undo_last_move h, fun st d => ?_⟩
  unfold full_recursive_search
  split_ifs
  · rfl
  · exact all_cards_search_aux _ st

/-- Witness for C3 at a concrete board and move. -/
theorem claim_C3_witness :
    ∃ b', make_move aceColBoard aceColMove = some b'
      ∧ all_cards b' = all_cards aceColBoard := by
  rcases hmk : make_move aceColBoard aceColMove with _ | b'
  · exact absurd hmk (by decide)
  · exact ⟨b', rfl,
      claim_C3_card_conservation.1 aceColBoard aceColMove b' hmk⟩

/-! ### The backtrack contract of the recursive search -/

theorem sort_moves_subset {moves : List Move} {m : Move}
    (h : m ∈ sort_moves_by_priority moves) : m ∈ moves := by
  unfold sort_moves_by_priority at h
  rcases List.mem_append.mp h with h1 | h1
  · rcases List.mem_append.mp h1 with h2 | h2 <;>
      exact (List.mem_filter.mp h2).1
  · exact (List.mem_filter.mp h1).1

theorem filter_redundant_subset (b : Board) :
    ∀ (ms : List Move) (seen : List String) (m : Move),
      m ∈ filter_redundant_moves b ms seen → m ∈ ms := by
  intro ms
  induction ms with
  | nil =>
      intro seen m h
      exact absurd h (List.not_mem_nil m)
  | cons x rest ih =>
      intro seen m h
      unfold filter_redundant_moves at h
      by_cases hk : equivalency_key b x ∈ seen
      · rw [if_pos hk] at h
        exact List.mem_cons_of_mem x (ih _ m h)
      · rw [if_neg hk] at h
        rcases List.mem_cons.mp h with rfl | h2
        · simp
        · exact List.mem_cons_of_mem x (ih _ m h2)

/-- The backtrack contract as a property of one search step: the step either
leaves the board solved with the move history only extended, or returns the
board (stacks and history) exactly as received. -/
def frame_ok (f : SearchState → SearchState) : Prop :=
  ∀ st : SearchState,
    (is_solved (f st).board = true
      ∧ ∃ ms, (f st).board.move_history = st.board.move_history ++ ms)
    ∨ (f st).board = st.board

theorem try_moves_frame (recurse : SearchState → SearchState)
    (hrec : frame_ok recurse) :
    ∀ (ms : List Move) (st : SearchState),
      (∀ m ∈ ms, stackCards st.board m.from_loc ≠ []) →
      (is_solved (try_moves recurse ms st).board = true
        ∧ ∃ ext, (try_moves recurse ms st).board.move_history
            = st.board.move_history ++ ext)
      ∨ (try_moves recurse ms st).board = st.board := by
  intro ms
  induction ms with
  | nil =>
      intro st hsrc
      right
      rfl
  | cons m rest ih =>
      intro st hsrc
      unfold try_moves
      obtain ⟨b1, hmk⟩ := make_move_eq_some (hsrc m (List.mem_cons_self m rest))
      simp only [hmk]
      by_cases hsolved : is_solved b1 = true
      · rw [if_pos hsolved]
        left
        exact ⟨hsolved, [m], make_move_history hmk⟩
      · rw [if_neg hsolved]
        rcases hseen : dict_get st.boards_seen (fingerprint b1) with _ | seen_at
        · simp only [hseen]
          set st1 : SearchState :=
            { board := b1
              boards_seen :=
                st.boards_seen ++ [(fingerprint b1, st.boards_seen.length)]
              histogram := st.histogram } with hst1
          rcases hrec st1 with ⟨hsol2, ms2, hhist2⟩ | heq2
          · rw [if_pos hsol2]
            left
            refine ⟨hsol2, [m] ++ ms2, ?_⟩
            rw [hhist2]
            have hb1h : st1.board.move_history
                = st.board.move_history ++ [m] := make_move_history hmk
            rw [hb1h, List.append_assoc]
          · rw [if_neg (by rw [heq2]; exact hsolved)]
            have hundo : undo_last_move (recurse st1).board = some st.board := by
              rw [heq2]
              exact undo_make_move hmk
            simp only [hundo]
            exact ih { recurse st1 with board := st.board }
              (fun m' hm' => hsrc m' (List.mem_cons_of_mem m hm'))
        · simp only [hseen]
          have hundo : undo_last_move b1 = some st.board := undo_make_move hmk
          simp only [hundo]
          exact ih _ (fun m' hm' => hsrc m' (List.mem_cons_of_mem m hm'))

theorem search_aux_frame : ∀ f : Nat, frame_ok (search_aux f) := by
  intro f
  induction f with
  | zero =>
      intro st
      right
      rfl
  | succ n ih =>
      intro st
      unfold search_aux
      apply try_moves_frame (search_aux n) ih
      intro m hm
      exact all_valid_moves_source_ne_nil
        (sort_moves_subset (filter_redundant_subset st.board _ _ m hm))

/-- C1: for every search state (board plus visited table) and every integer
depth budget, `full_recursive_search` either leaves the board solved with the
winning move sequence appended to the history it was called with (no undo
above the solving level — the entry history is a prefix of the final one), or
returns the board bit-for-bit identical (all 16 stacks and the move history)
to its state at entry; in particular, when the search returns unsolved, the
final fingerprint equals the entry fingerprint. -/
theorem claim_C1_backtrack_contract (st : SearchState) (d : Int) :
    ((is_solved (full_recursive_search st d).board = true
        ∧ ∃ ms, (full_recursive_search st d).board.move_history
            = st.board.move_history ++ ms)
      ∨ (full_recursive_search st d).board = st.board)
    ∧ (is_solved (full_recursive_search st d).board = false →
        fingerprint (full_recursive_search st d).board
          = fingerprint st.board) := by
  have hmain :
      (is_solved (full_recursive_search st d).board = true
        ∧ ∃ ms, (full_recursive_search st d).board.move_history
            = st.board.move_history ++ ms)
      ∨ (full_recursive_search st d).board = st.board := by
    unfold full_recursive_search
    split_ifs
    · right
      rfl
    · exact search_aux_frame _ st
  refine ⟨hmain, fun hfalse => ?_⟩
  rcases hmain with ⟨hsol, -⟩ | heq
  · rw [hsol] at hfalse
    exact absurd hfalse (by simp)
  · rw [heq]

/-- The initial search state of a search started on the empty board with
empty global tables. -/
def emptyState : SearchState :=
  { board := emptyBoard, boards_seen := [], histogram := [] }

/-- Witness for C1 at a concrete state and depth. -/
theorem claim_C1_witness :
    is_solved (full_recursive_search emptyState 3).board = false ∧
      fingerprint (full_recursive_search emptyState 3).board
        = fingerprint emptyState.board :=
  ⟨by decide, (claim_C1_backtrack_contract emptyState 3).2 (by decide)⟩

end FreecellSolver
